import Mathlib

/-!
Verification of the SmartScheduling backend scheduling core.

The definitions below are a shallow embedding of the JavaScript source:

* `src/backend/src/utils/time.js` (`overlapInterval`)
* `src/backend/src/controllers/sessionController.js`
  (`overlapQuery`, `isWithinAvailability`, `bookSession`,
   `checkRescheduleSession`, `rescheduleSession`, `timesOverlap`)
* the scheduling service (`findSlots`, `rankSlots`) and the public
  available-slots controller (`getAvailableSlots`, `generateSlotTimes`).

Conventions of the embedding:

* Instants (JavaScript `Date` values) are modelled as natural numbers,
  the number of minutes since the Unix epoch, and all wall-clock values
  (HH:mm strings in the source) as minutes from midnight (0..1439).
  The source uses one single UTC convention for the booking validation
  and the public slot listing; day 0 of the epoch is a Thursday, so the
  UTC weekday of an instant `t` is `(t / 1440 + 4) % 7` with 0 = Sunday,
  matching the `DAYS_ENUM` table of the source.
* String parsing (ISO dates, HH:mm, ObjectId hex format) is elided: the
  embedded operations receive already-parsed numeric values, and the
  parse-failure branches of the source are outside the embedded domain.
* Mongo queries become pure scans over lists held in a `St` record;
  `findOne` on a filter becomes `List.any` / `List.find?` on the same
  predicate; document ids (`_id`) become a `sid` field.
-/

namespace SmartScheduling

/-- Session lifecycle status, from the `Session` schema enum
`["scheduled", "cancelled", "completed"]`. -/
inductive Status where
  | scheduled
  | cancelled
  | completed
deriving DecidableEq, Repr

/-- A half-open instant interval.  Used for `TimeOff` entries and as the
argument/result type of `overlapInterval` from `utils/time.js`.  The JS
field `end` is a Lean keyword, embedded as `stop`. -/
structure Iv where
  start : Nat
  stop : Nat
deriving DecidableEq, Repr

/-- Embedding of `overlapInterval` (`src/backend/src/utils/time.js`):
intersection of two half-open intervals, `none` when
`max(a.start,b.start) >= min(a.end,b.end)`. -/
def overlapInterval (a b : Iv) : Option Iv :=
  let s := max a.start b.start
  let e := min a.stop b.stop
  if s ≥ e then none else some ⟨s, e⟩

/-- Embedding of `timesOverlap` (`sessionController.js`, availability
management): whether two half-open wall-clock ranges overlap.  The
HH:mm-string inputs of the source arrive here already converted to
minutes (the source converts them with `timeToMinutes` first). -/
def timesOverlap (s1 e1 s2 e2 : Nat) : Bool :=
  decide (s1 < e2) && decide (e1 > s2)

/-- Embedding of `overlapQuery` (`sessionController.js`): the Mongo
filter `start: \x7b $lt: end \x7d, end: \x7b $gt: start \x7d` applied to one stored
session interval, i.e. `existing.start < end && existing.end > start`. -/
def overlapQuery (existingStart existingStop s e : Nat) : Bool :=
  decide (existingStart < e) && decide (existingStop > s)

/-- UTC weekday of an instant, 0 = Sunday .. 6 = Saturday
(`dateToDayOfWeekUTC`; the Unix epoch day is a Thursday). -/
def dayOfWeekUTC (t : Nat) : Nat :=
  (t / 1440 + 4) % 7

/-- Wall-clock minutes from midnight of an instant (`dateToHHmmUTC`,
with the HH:mm string kept in minute form). -/
def hhmmUTC (t : Nat) : Nat :=
  t % 1440

/-- Midnight of the calendar day containing an instant (used where the
source calls `setHours` on a `Date` holding a day cursor). -/
def dayStart (t : Nat) : Nat :=
  t / 1440 * 1440

end SmartScheduling

namespace SmartScheduling

/-- A stored session document (`models/Session.js`): therapist and client
references, half-open instant interval, lifecycle status.  `_id` becomes
`sid`; the JS field `end` is a Lean keyword, embedded as `stop`. -/
structure Session where
  sid : Nat
  therapist : Nat
  client : Nat
  start : Nat
  stop : Nat
  status : Status
deriving DecidableEq, Repr

/-- A persisted `Availability` record (weekly recurring block): therapist
reference, weekday (the source stores a day name from `DAYS_ENUM`,
embedded as its 0..6 index), wall-clock HH:mm bounds in minutes. -/
structure AvailabilitySlot where
  therapist : Nat
  dayOfWeek : Nat
  startTime : Nat
  endTime : Nat
  recurringWeekly : Bool
deriving DecidableEq, Repr

/-- A `weeklyAvailability` entry of the `Therapist` model (numeric
weekday 0..6, HH:mm bounds in minutes), used by the suggest flow. -/
structure WeeklyBlock where
  dayOfWeek : Nat
  startTime : Nat
  endTime : Nat
deriving DecidableEq, Repr

/-- Client hard constraints (`noEarlyThan` / `noLaterThan` wall-clock
minutes), field names as in the scheduling service. -/
structure HardConstraints where
  noEarlyThan : Option Nat
  noLaterThan : Option Nat
deriving DecidableEq, Repr

/-- A preferred wall-clock time range of a client. -/
structure TimeRange where
  startTime : Nat
  endTime : Nat
deriving DecidableEq, Repr

/-- Client preferences as used by `findSlots` / `rankSlots`. -/
structure Preferences where
  preferredDaysOfWeek : List Nat
  preferredTimeRanges : List TimeRange
  preferredTherapistIds : List Nat
  hardConstraints : Option HardConstraints
deriving DecidableEq, Repr

/-- A `Therapist` document: id, weekly availability blocks, time off. -/
structure TherapistDoc where
  tid : Nat
  weeklyAvailability : List WeeklyBlock
  timeOff : List Iv
deriving DecidableEq, Repr

/-- A `Client` document: id and preferences. -/
structure ClientDoc where
  cid : Nat
  preferences : Preferences
deriving DecidableEq, Repr

/-- The persistent store touched by the scheduling core: the `Session`
and `Availability` collections plus the `Therapist` and `Client`
collections. -/
structure St where
  sessions : List Session
  avail : List AvailabilitySlot
  therapists : List TherapistDoc
  clients : List ClientDoc
deriving DecidableEq, Repr

/-- The requesting actor as resolved by `resolveActorIds`: a role plus
the client/therapist profile id when one could be resolved. -/
inductive Actor where
  | admin
  | client (cid : Option Nat)
  | therapist (tid : Option Nat)
  | noRole
deriving DecidableEq, Repr

/-- Embedding of `canAccessSessionStrict`: admin always allowed, client
and therapist only on their own session, deny when the profile id could
not be resolved or there is no role (fail closed). -/
def canAccessSessionStrict : Actor → Session → Bool
  | .admin, _ => true
  | .client none, _ => false
  | .client (some c), s => c == s.client
  | .therapist none, _ => false
  | .therapist (some t), s => t == s.therapist
  | .noRole, _ => false

/-- Embedding of `isWithinAvailability`: the proposed interval, reduced
to UTC weekday (of its start) and wall-clock minutes, must fall inside a
single `Availability` record of the therapist for that weekday.  The
`slots.length === 0` early return of the source is subsumed by `any` on
the empty list. -/
def isWithinAvailability (avail : List AvailabilitySlot) (tid s e : Nat) : Bool :=
  let dow := dayOfWeekUTC s
  let startMin := hhmmUTC s
  let endMin := hhmmUTC e
  (avail.filter fun a => a.therapist == tid && a.dayOfWeek == dow).any
    fun a => decide (startMin ≥ a.startTime) && decide (endMin ≤ a.endTime)

/-- The Mongo conflict query for a therapist: a stored session with the
given therapist, `status: \x7b $ne: "cancelled" \x7d`, interval overlapping
per `overlapQuery`, and (when `excl` is supplied, as in reschedule)
`_id: \x7b $ne: excl \x7d`. -/
def therapistConflict (sessions : List Session) (tid s e : Nat) (excl : Option Nat) : Bool :=
  sessions.any fun x =>
    (match excl with
     | none => true
     | some i => decide (x.sid ≠ i)) &&
    decide (x.therapist = tid) && decide (x.status ≠ .cancelled) &&
    overlapQuery x.start x.stop s e

/-- The Mongo conflict query for a client, mirror of `therapistConflict`
on the `client` field. -/
def clientConflict (sessions : List Session) (cid s e : Nat) (excl : Option Nat) : Bool :=
  sessions.any fun x =>
    (match excl with
     | none => true
     | some i => decide (x.sid ≠ i)) &&
    decide (x.client = cid) && decide (x.status ≠ .cancelled) &&
    overlapQuery x.start x.stop s e

/-- Which party a booking conflict was detected on (the source encodes
this only in the 409 response message). -/
inductive Party where
  | therapist
  | client
deriving DecidableEq, Repr

/-- The typed rejections of `bookSession`, in the order the source can
produce them: 403 no client actor, 400 `endAt` not after `startAt`,
404 therapist not found, 403 client profile not found, 400 outside
availability, 409 conflict. -/
inductive BookErr where
  | notAuthorized
  | invalidTime
  | therapistNotFound
  | clientProfileNotFound
  | notInAvailability
  | conflict (p : Party)
deriving DecidableEq, Repr

/-- Result of a booking attempt. -/
inductive BookOutcome where
  | ok (s : Session)
  | err (e : BookErr)
deriving DecidableEq, Repr

/-- A fresh session id, larger than every stored one (Mongo generates a
fresh `_id` on `Session.create`). -/
def freshSid (σ : St) : Nat :=
  (σ.sessions.map Session.sid).foldr max 0 + 1

/-- Embedding of `bookSession` (sequential semantics; the transactional
and the plain path of the source run the same checks in the same order).
Checks, first failure wins: resolved client actor, `endAt` after
`startAt`, therapist exists, client profile exists, within availability,
no therapist conflict, no client conflict; then insert the new
`scheduled` session.  Input-format checks on the raw strings are elided
(inputs arrive parsed). -/
def bookSession (σ : St) (clientId : Option Nat) (therapistId s e : Nat) :
    BookOutcome × St :=
  match clientId with
  | none => (.err .notAuthorized, σ)
  | some cid =>
    if e ≤ s then (.err .invalidTime, σ)
    else if ¬ (σ.therapists.any fun t => t.tid == therapistId) then
      (.err .therapistNotFound, σ)
    else if ¬ (σ.clients.any fun c => c.cid == cid) then
      (.err .clientProfileNotFound, σ)
    else if ¬ isWithinAvailability σ.avail therapistId s e then
      (.err .notInAvailability, σ)
    else if therapistConflict σ.sessions therapistId s e none then
      (.err (.conflict .therapist), σ)
    else if clientConflict σ.sessions cid s e none then
      (.err (.conflict .client), σ)
    else
      let newS : Session :=
        ⟨freshSid σ, therapistId, cid, s, e, .scheduled⟩
      (.ok newS, { σ with sessions := σ.sessions ++ [newS] })

/-- The discriminated reschedule reasons of the source
(`reschedule-check` returns them verbatim; the apply route maps them to
HTTP statuses). -/
inductive RReason where
  | invalidTime
  | past
  | notFound
  | invalidStatus
  | forbidden
  | notInAvailability
  | conflict
deriving DecidableEq, Repr

/-- Result payload of `reschedule-check`:
`\x7b canReschedule, reason? \x7d`. -/
structure CheckResult where
  canReschedule : Bool
  reason : Option RReason
deriving DecidableEq, Repr

/-- Embedding of `checkRescheduleSession` (read-only pre-check).  Order:
invalid/inverted times, start not in the future (`start <= now`),
session exists, status is `scheduled`, actor allowed, within
availability, therapist conflict excluding the session itself, client
conflict excluding the session itself. -/
def checkRescheduleSession (σ : St) (now : Nat) (actor : Actor) (id ns ne : Nat) :
    CheckResult :=
  if ne ≤ ns then ⟨false, some .invalidTime⟩
  else if ns ≤ now then ⟨false, some .past⟩
  else
    match σ.sessions.find? fun x => x.sid == id with
    | none => ⟨false, some .notFound⟩
    | some existing =>
      if existing.status ≠ .scheduled then ⟨false, some .invalidStatus⟩
      else if ¬ canAccessSessionStrict actor existing then ⟨false, some .forbidden⟩
      else if ¬ isWithinAvailability σ.avail existing.therapist ns ne then
        ⟨false, some .notInAvailability⟩
      else if therapistConflict σ.sessions existing.therapist ns ne (some id) then
        ⟨false, some .conflict⟩
      else if clientConflict σ.sessions existing.client ns ne (some id) then
        ⟨false, some .conflict⟩
      else ⟨true, none⟩

/-- Result of a reschedule apply attempt. -/
inductive ApplyOutcome where
  | ok (s : Session)
  | err (r : RReason)
deriving DecidableEq, Repr

/-- Embedding of `rescheduleSession` (the apply route).  Same validation
chain as `checkRescheduleSession` except that it performs no
past-start check; on success the stored session's `start`/`end` are
mutated in place, on any failure the store is returned unchanged. -/
def rescheduleSession (σ : St) (actor : Actor) (id ns ne : Nat) :
    ApplyOutcome × St :=
  if ne ≤ ns then (.err .invalidTime, σ)
  else
    match σ.sessions.find? fun x => x.sid == id with
    | none => (.err .notFound, σ)
    | some existing =>
      if existing.status ≠ .scheduled then (.err .invalidStatus, σ)
      else if ¬ canAccessSessionStrict actor existing then (.err .forbidden, σ)
      else if ¬ isWithinAvailability σ.avail existing.therapist ns ne then
        (.err .notInAvailability, σ)
      else if therapistConflict σ.sessions existing.therapist ns ne (some id) then
        (.err .conflict, σ)
      else if clientConflict σ.sessions existing.client ns ne (some id) then
        (.err .conflict, σ)
      else
        (.ok { existing with start := ns, stop := ne },
         { σ with sessions := σ.sessions.map fun x =>
            if x.sid == id then { x with start := ns, stop := ne } else x })

/-- Two stored sessions do not violate the core invariant: they must not
be simultaneously active (`status ≠ cancelled`), for the same therapist
or the same client, with overlapping half-open intervals. -/
def noClash (a b : Session) : Prop :=
  ¬ (a.status ≠ .cancelled ∧ b.status ≠ .cancelled ∧
     (a.therapist = b.therapist ∨ a.client = b.client) ∧
     a.start < b.stop ∧ b.start < a.stop)

/-- The core invariant of the spec: for any single therapist the active
sessions are pairwise non-overlapping on `[start,end)`, and likewise for
any single client. -/
def ClashFree (l : List Session) : Prop :=
  l.Pairwise noClash

/-- Structural store well-formedness: Mongo `_id`s are unique. -/
def SidsUnique (l : List Session) : Prop :=
  l.Pairwise fun a b => a.sid ≠ b.sid

/-- One write call of the scheduling core (the only mutating paths). -/
inductive Call where
  | book (clientId : Option Nat) (therapistId s e : Nat)
  | reschedule (actor : Actor) (id ns ne : Nat)

/-- Apply one call to the store, keeping the resulting store (a failed
call leaves the store unchanged by construction of the operations). -/
def step (σ : St) : Call → St
  | .book c t s e => (bookSession σ c t s e).2
  | .reschedule a i ns ne => (rescheduleSession σ a i ns ne).2

/-- Run a sequence of booking/reschedule calls left to right. -/
def run (σ : St) (calls : List Call) : St :=
  calls.foldl step σ

/-- The read phase of the non-transactional booking path
(`NODE_ENV ≠ "production"`): all validations up to and including both
conflict checks, evaluated against a snapshot of the store, with no lock
held.  Used to model two concurrent bookings that both read before
either writes. -/
def bookChecksPass (σ : St) (cid tid s e : Nat) : Bool :=
  (σ.therapists.any fun t => t.tid == tid) &&
  (σ.clients.any fun c => c.cid == cid) &&
  decide (s < e) &&
  isWithinAvailability σ.avail tid s e &&
  !(therapistConflict σ.sessions tid s e none) &&
  !(clientConflict σ.sessions cid s e none)

/-- The write phase of the non-transactional booking path: plain insert
of the new `scheduled` session (`Session.create`). -/
def insertScheduled (σ : St) (sess : Session) : St :=
  { σ with sessions := σ.sessions ++ [sess] }

/-- The partial unique index of `models/Session.js` on
`(therapist, start, end, status)` restricted to `status: "scheduled"`:
whether inserting `x` would violate it against the stored sessions. -/
def uniqueIndexViolated (sessions : List Session) (x : Session) : Bool :=
  x.status == Status.scheduled && sessions.any fun y =>
    y.status == Status.scheduled && y.therapist == x.therapist &&
    y.start == x.start && y.stop == x.stop

/-- Insertion into a sorted list of naturals (ascending). -/
def insertSortedNat (x : Nat) : List Nat → List Nat
  | [] => [x]
  | y :: ys => if x ≤ y then x :: y :: ys else y :: insertSortedNat x ys

/-- Ascending sort of a list of naturals, modelling the JavaScript
`.sort()` on the generated slot keys. -/
def sortNat (l : List Nat) : List Nat :=
  l.foldr insertSortedNat []

/-- The duration clamp of `getAvailableSlots`:
`Math.max(5, Math.min(120, Number(req.query.durationMinutes) || 30))`.
`none` stands for a missing or non-numeric query value (`Number` gives
`NaN`, which is falsy), and `0` is falsy as well; both default to 30. -/
def clampDuration (q : Option Int) : Nat :=
  match q with
  | none => 30
  | some v => if v = 0 then 30 else (max 5 (min 120 v)).toNat

/-- The slot-slicing loop shared by `generateSlotTimes` and `findSlots`:
consecutive start offsets from `m`, advancing by `d`, keeping starts
whose slot fits entirely before `endM`.  The source loop has no `0 < d`
guard; the guard here only makes the recursion well-founded and is never
reached by the callers, which pass a positive duration. -/
def slotStarts (m endM d : Nat) : List Nat :=
  if _h : 0 < d ∧ m + d ≤ endM then m :: slotStarts (m + d) endM d else []
termination_by endM - m
decreasing_by omega

/-- Embedding of `generateSlotTimes` of the public available-slots
controller: slice every availability range of the day, de-duplicate
(the JS `Set`) and sort. -/
def generateSlotTimes (ranges : List TimeRange) (durationMin : Nat) : List Nat :=
  sortNat ((ranges.flatMap fun r => slotStarts r.startTime r.endTime durationMin).dedup)

/-- The availability ranges of one therapist for a weekday, as gathered
by `getAvailableSlots` from the `Availability` collection. -/
def availableRangesFor (σ : St) (dow tid : Nat) : List TimeRange :=
  (σ.avail.filter fun a => a.therapist == tid && a.dayOfWeek == dow).map
    fun a => ⟨a.startTime, a.endTime⟩

/-- The free slots of one therapist on calendar day `d` (a day index;
instants are `d * 1440 + wallClockMinutes`): every generated slot start
whose interval overlaps no non-cancelled session of that therapist. -/
def freeSlotsFor (σ : St) (d tid dur : Nat) : List Nat :=
  let dow := (d + 4) % 7
  (generateSlotTimes (availableRangesFor σ dow tid) dur).filter fun m =>
    ¬ (σ.sessions.any fun x =>
        x.therapist == tid && decide (x.status ≠ .cancelled) &&
        decide (x.start < d * 1440 + m + dur) && decide (x.stop > d * 1440 + m))

/-- Embedding of `getAvailableSlots` (`GET /api/public/available-slots`):
for the date's UTC weekday, every therapist owning an availability
record that day, paired with their free slot starts; therapists with no
generated or no free slot are omitted. -/
def getAvailableSlots (σ : St) (d : Nat) (q : Option Int) : List (Nat × List Nat) :=
  let dur := clampDuration q
  let dow := (d + 4) % 7
  let tids := ((σ.avail.filter fun a => a.dayOfWeek == dow).map
    AvailabilitySlot.therapist).dedup
  tids.filterMap fun tid =>
    let fs := freeSlotsFor σ d tid dur
    if fs.isEmpty then none else some (tid, fs)

/-- A candidate booking window produced by the suggest flow. -/
structure Slot where
  therapist : Nat
  start : Nat
  stop : Nat
deriving DecidableEq, Repr

/-- Embedding of `applyHardConstraints` of the scheduling service: raise
the interval start to `noEarlyThan` and lower its end to `noLaterThan`
(both wall-clock times on the cursor day); `none` when the clipped
interval is empty or inverted. -/
def applyHardConstraints (day : Nat) (interval : Iv) (hc : Option HardConstraints) :
    Option Iv :=
  match hc with
  | none => some interval
  | some c =>
    let s := match c.noEarlyThan with
      | none => interval.start
      | some t => if interval.start < dayStart day + t then dayStart day + t else interval.start
    let e := match c.noLaterThan with
      | none => interval.stop
      | some t => if interval.stop > dayStart day + t then dayStart day + t else interval.stop
    if s ≥ e then none else some ⟨s, e⟩

/-- The full-containment veto of `findSlots`: the candidate interval is
dropped when `overlapInterval(interval, cand)` exists and covers the
whole interval. -/
def coveredBy (interval cand : Iv) : Bool :=
  match overlapInterval interval cand with
  | none => false
  | some oI => decide (oI.start ≤ interval.start) && decide (oI.stop ≥ interval.stop)

/-- Per preferred-time-range candidate processing of `findSlots`:
intersect the availability block with the range, clip to hard
constraints, drop the window when a time-off or a fetched session fully
contains it, then slice into `dur`-minute slots. -/
def candidateSlots (day : Nat) (pref : Preferences) (offs : List Iv)
    (sessions : List Session) (block : WeeklyBlock) (tid dur : Nat)
    (tr : TimeRange) : List Slot :=
  let blockIv : Iv := ⟨dayStart day + block.startTime, dayStart day + block.endTime⟩
  let prefIv : Iv := ⟨dayStart day + tr.startTime, dayStart day + tr.endTime⟩
  match overlapInterval blockIv prefIv with
  | none => []
  | some i1 =>
    match applyHardConstraints day i1 pref.hardConstraints with
    | none => []
    | some i2 =>
      if offs.any fun off => coveredBy i2 off then []
      else if sessions.any fun x => coveredBy i2 ⟨x.start, x.stop⟩ then []
      else (slotStarts i2.start i2.stop dur).map fun m => ⟨tid, m, m + dur⟩

/-- One day-loop iteration of `findSlots`: skip the day when the client
picked preferred weekdays not containing it, otherwise process every
availability block of the weekday against every preferred time range
(or the block itself when the client specified none). -/
def findSlotsDay (t : TherapistDoc) (pref : Preferences) (sessions : List Session)
    (day dur : Nat) : List Slot :=
  let dow := dayOfWeekUTC day
  if ¬ pref.preferredDaysOfWeek.isEmpty ∧ dow ∉ pref.preferredDaysOfWeek then []
  else
    (t.weeklyAvailability.filter fun b => b.dayOfWeek == dow).flatMap fun block =>
      (if pref.preferredTimeRanges.isEmpty then
        ([⟨block.startTime, block.endTime⟩] : List TimeRange)
       else pref.preferredTimeRanges).flatMap
        (candidateSlots day pref t.timeOff sessions block t.tid dur)

/-- The day loop of `findSlots`: advance the cursor one calendar day at
a time while it stays before `toT`. -/
def findSlotsLoop (t : TherapistDoc) (pref : Preferences) (sessions : List Session)
    (day toT dur : Nat) : List Slot :=
  if _h : day < toT then
    findSlotsDay t pref sessions day dur ++
      findSlotsLoop t pref sessions (day + 1440) toT dur
  else []
termination_by toT - day
decreasing_by omega

/-- Embedding of `findSlots` of the scheduling service (the suggest
flow): fetch client and therapist (`none` models the thrown "Client or
therapist not found"), prefetch the therapist's `scheduled` sessions
intersecting `[fromT,toT)`, then run the day loop. -/
def findSlots (σ : St) (clientId therapistId fromT toT sessionMinutes : Nat) :
    Option (ClientDoc × TherapistDoc × List Slot) :=
  match σ.clients.find? fun c => c.cid == clientId,
        σ.therapists.find? fun t => t.tid == therapistId with
  | some client, some t =>
    let sessions := σ.sessions.filter fun x =>
      x.therapist == therapistId && x.status == Status.scheduled &&
      decide (x.start < toT) && decide (x.stop > fromT)
    some (client, t, findSlotsLoop t client.preferences sessions fromT toT sessionMinutes)
  | _, _ => none

/-- Definition written from the SPEC's words (§4.2), not from the
source, for comparison with the source's `isWithinAvailability`:
resolved availability for the date of instant `t` is the set of weekly
availability blocks matching the date's weekday, as instant intervals,
with a block dropped when a stored time-off interval of the therapist
fully contains it. -/
def specResolvedAvailability (σ : St) (tid t : Nat) : List Iv :=
  let dow := dayOfWeekUTC t
  let offs := (σ.therapists.find? fun d => d.tid == tid).elim [] TherapistDoc.timeOff
  ((σ.avail.filter fun a => a.therapist == tid && a.dayOfWeek == dow).map fun a =>
      (⟨dayStart t + a.startTime, dayStart t + a.endTime⟩ : Iv)).filter fun w =>
    ¬ offs.any fun off => decide (off.start ≤ w.start) && decide (w.stop ≤ off.stop)

/-- Definition written from the SPEC's words: the proposed interval is
fully contained in one interval of the resolved availability (§4.2) of
its date. -/
def specWithinResolvedAvailability (σ : St) (tid s e : Nat) : Bool :=
  (specResolvedAvailability σ tid s).any fun w =>
    decide (w.start ≤ s) && decide (e ≤ w.stop)

/-- Empty client preferences (no preferred days, ranges, therapists or
hard constraints). -/
def prefs0 : Preferences :=
  ⟨[], [], [], none⟩

/-- Concrete store for the booking-order counterexample: one client, no
therapists at all. -/
def stInverted : St :=
  { sessions := [], avail := [], therapists := [], clients := [⟨1, prefs0⟩] }

/-- Concrete store for the check/apply divergence: therapist 7 with a
Monday 09:00-12:00 availability record, one scheduled session on Monday
(day index 4 of the epoch, instants in minutes). -/
def stPastOk : St :=
  { sessions := [⟨1, 7, 2, 6300, 6330, .scheduled⟩]
    avail := [⟨7, 1, 540, 720, true⟩]
    therapists := [⟨7, [], []⟩]
    clients := [⟨2, prefs0⟩] }

/-- Concrete store for the time-off counterexample: therapist 7 with a
Monday 09:00-12:00 availability record and a time-off interval covering
that whole Monday (minutes 5760..7200). -/
def stTimeOff : St :=
  { sessions := []
    avail := [⟨7, 1, 540, 720, true⟩]
    therapists := [⟨7, [], [⟨5760, 7200⟩]⟩]
    clients := [⟨1, prefs0⟩] }

/-- Concrete store for the slot-generator counterexample: therapist 1
with a Monday 09:00-12:00 weekly availability block and a scheduled
session 09:00-09:30 on that Monday, partially overlapping the block. -/
def stPartialOverlap : St :=
  { sessions := [⟨9, 1, 3, 6300, 6330, .scheduled⟩]
    avail := []
    therapists := [⟨1, [⟨1, 540, 720⟩], []⟩]
    clients := [⟨2, prefs0⟩] }

/-- Concrete store for the booking race: therapist 1 with a Monday
09:00-12:00 availability record, two clients, no sessions yet. -/
def stRace : St :=
  { sessions := []
    avail := [⟨1, 1, 540, 720, true⟩]
    therapists := [⟨1, [], []⟩]
    clients := [⟨2, prefs0⟩, ⟨3, prefs0⟩] }

end SmartScheduling

namespace SmartScheduling

/-- C8: the conflict test used everywhere is exactly
`a.start < b.end && a.end > b.start` on half-open intervals; it is
symmetric, touching intervals such as `[0,30)` and `[30,60)` do not
conflict, and `overlapInterval` returns `none` exactly when
`max(a.start,b.start) >= min(a.end,b.end)`. -/
theorem overlap_test_canonical :
    (∀ s1 e1 s2 e2 : Nat,
      timesOverlap s1 e1 s2 e2 = true ↔ s1 < e2 ∧ e1 > s2) ∧
    (∀ s1 e1 s2 e2 : Nat,
      timesOverlap s1 e1 s2 e2 = timesOverlap s2 e2 s1 e1) ∧
    timesOverlap 0 30 30 60 = false ∧
    (∀ a b : Iv,
      overlapInterval a b = none ↔ min a.stop b.stop ≤ max a.start b.start) := by
  refine ⟨?_, ?_, by decide, ?_⟩
  · intro s1 e1 s2 e2
    simp [timesOverlap]
  · intro s1 e1 s2 e2
    simp only [timesOverlap, gt_iff_lt, Bool.and_comm]
  · intro a b
    simp only [overlapInterval]
    split
    · simp; omega
    · simp; omega

end SmartScheduling

namespace SmartScheduling

theorem overlapQuery_eq_true {a b s e : Nat} :
    overlapQuery a b s e = true ↔ a < e ∧ b > s := by
  simp [overlapQuery]

theorem therapistConflict_none_iff {l : List Session} {tid s e : Nat} :
    therapistConflict l tid s e none = true ↔
      ∃ x ∈ l, x.therapist = tid ∧ x.status ≠ .cancelled ∧ x.start < e ∧ x.stop > s := by
  simp [therapistConflict, overlapQuery, List.any_eq_true, and_assoc]

theorem clientConflict_none_iff {l : List Session} {cid s e : Nat} :
    clientConflict l cid s e none = true ↔
      ∃ x ∈ l, x.client = cid ∧ x.status ≠ .cancelled ∧ x.start < e ∧ x.stop > s := by
  simp [clientConflict, overlapQuery, List.any_eq_true, and_assoc]

theorem therapistConflict_excl_iff {l : List Session} {tid s e i : Nat} :
    therapistConflict l tid s e (some i) = true ↔
      ∃ x ∈ l, x.sid ≠ i ∧ x.therapist = tid ∧ x.status ≠ .cancelled ∧
        x.start < e ∧ x.stop > s := by
  simp [therapistConflict, overlapQuery, List.any_eq_true, and_assoc]

theorem clientConflict_excl_iff {l : List Session} {cid s e i : Nat} :
    clientConflict l cid s e (some i) = true ↔
      ∃ x ∈ l, x.sid ≠ i ∧ x.client = cid ∧ x.status ≠ .cancelled ∧
        x.start < e ∧ x.stop > s := by
  simp [clientConflict, overlapQuery, List.any_eq_true, and_assoc]

theorem isWithinAvailability_iff {avail : List AvailabilitySlot} {tid s e : Nat} :
    isWithinAvailability avail tid s e = true ↔
      ∃ a ∈ avail, a.therapist = tid ∧ a.dayOfWeek = dayOfWeekUTC s ∧
        a.startTime ≤ hhmmUTC s ∧ hhmmUTC e ≤ a.endTime := by
  simp [isWithinAvailability, List.any_eq_true, List.mem_filter, ge_iff_le, and_assoc]

/-- C7: the reschedule apply route leaves the store untouched on every
validation failure: a rejected `rescheduleSession` returns the state it
was given (the source mutates `start`/`end` only after the last check
passed). -/
theorem reschedule_failure_leaves_state (σ : St) (actor : Actor) (id ns ne : Nat)
    (r : RReason) (h : (rescheduleSession σ actor id ns ne).1 = .err r) :
    (rescheduleSession σ actor id ns ne).2 = σ := by
  by_cases h1 : ne ≤ ns
  · simp [rescheduleSession, h1]
  · cases hf : σ.sessions.find? fun x => x.sid == id with
    | none => simp [rescheduleSession, h1, hf]
    | some existing =>
      by_cases h2 : existing.status = Status.scheduled
      · by_cases h3 : canAccessSessionStrict actor existing
        · by_cases h4 : isWithinAvailability σ.avail existing.therapist ns ne
          · by_cases h5 : therapistConflict σ.sessions existing.therapist ns ne (some id)
            · simp [rescheduleSession, h1, hf, h2, h3, h4, h5]
            · by_cases h6 : clientConflict σ.sessions existing.client ns ne (some id)
              · simp [rescheduleSession, h1, hf, h2, h3, h4, h5, h6]
              · simp [rescheduleSession, h1, hf, h2, h3, h4, h5, h6] at h
          · simp [rescheduleSession, h1, hf, h2, h3, h4]
        · simp [rescheduleSession, h1, hf, h2, h3]
      · simp [rescheduleSession, h1, hf, h2]

/-- Witness for C7 at a concrete rejected call: inverted times are
refused and the store of `stPastOk` is returned unchanged. -/
theorem reschedule_failure_leaves_state_witness :
    (rescheduleSession stPastOk .admin 1 50 40).2 = stPastOk :=
  reschedule_failure_leaves_state stPastOk .admin 1 50 40 .invalidTime (by decide)

/-- C4 counterexample: against the same store and clock, `check` can
refuse with reason `PAST` while `apply` succeeds, because the apply
route never compares the new start with the clock.  Store `stPastOk`,
clock 10000 (after the proposed start 6360). -/
theorem reschedule_check_apply_divergence :
    checkRescheduleSession stPastOk 10000 .admin 1 6360 6420 =
      ⟨false, some .past⟩ ∧
    (rescheduleSession stPastOk .admin 1 6360 6420).1 =
      .ok ⟨1, 7, 2, 6360, 6420, .scheduled⟩ := by
  decide

/-- C4 amended: `apply` re-runs every validation of `check` except the
past-start requirement.  Hence an allowed `check` always lets the same
`apply` succeed, and against a clock strictly before the proposed start
(where `PAST` cannot fire) `apply` succeeds exactly when `check`
allows. -/
theorem reschedule_apply_iff_check (σ : St) (now : Nat) (actor : Actor) (id ns ne : Nat) :
    ((checkRescheduleSession σ now actor id ns ne).canReschedule = true →
      ∃ s, (rescheduleSession σ actor id ns ne).1 = .ok s) ∧
    (now < ns →
      ((∃ s, (rescheduleSession σ actor id ns ne).1 = .ok s) ↔
        (checkRescheduleSession σ now actor id ns ne).canReschedule = true)) := by
  have main : ¬ ne ≤ ns → ¬ ns ≤ now →
      ((∃ s, (rescheduleSession σ actor id ns ne).1 = .ok s) ↔
        (checkRescheduleSession σ now actor id ns ne).canReschedule = true) := by
    intro h1 h2
    cases hf : σ.sessions.find? fun x => x.sid == id with
    | none => simp [checkRescheduleSession, rescheduleSession, h1, h2, hf]
    | some existing =>
      by_cases h3 : existing.status = Status.scheduled
      · by_cases h4 : canAccessSessionStrict actor existing
        · by_cases h5 : isWithinAvailability σ.avail existing.therapist ns ne
          · by_cases h6 : therapistConflict σ.sessions existing.therapist ns ne (some id)
            · simp [checkRescheduleSession, rescheduleSession, h1, h2, hf, h3, h4, h5, h6]
            · by_cases h7 : clientConflict σ.sessions existing.client ns ne (some id)
              · simp [checkRescheduleSession, rescheduleSession,
                  h1, h2, hf, h3, h4, h5, h6, h7]
              · simp [checkRescheduleSession, rescheduleSession,
                  h1, h2, hf, h3, h4, h5, h6, h7]
          · simp [checkRescheduleSession, rescheduleSession, h1, h2, hf, h3, h4, h5]
        · simp [checkRescheduleSession, rescheduleSession, h1, h2, hf, h3, h4]
      · simp [checkRescheduleSession, rescheduleSession, h1, h2, hf, h3]
  constructor
  · intro h
    by_cases h1 : ne ≤ ns
    · exfalso
      simp [checkRescheduleSession, h1] at h
    · by_cases h2 : ns ≤ now
      · exfalso
        simp [checkRescheduleSession, h1, h2] at h
      · exact (main h1 h2).mpr h
  · intro hn
    by_cases h1 : ne ≤ ns
    · constructor
      · rintro ⟨s, hs⟩
        simp [rescheduleSession, h1] at hs
      · intro h
        exfalso
        simp [checkRescheduleSession, h1] at h
    · exact main h1 (by omega)

/-- Witness for C4 amended at `stPastOk` with clock 0, before the
proposed start. -/
theorem reschedule_apply_iff_check_witness :
    ∃ s, (rescheduleSession stPastOk .admin 1 6360 6420).1 = .ok s :=
  ((reschedule_apply_iff_check stPastOk 0 .admin 1 6360 6420).2 (by norm_num)).mpr
    (by decide)

end SmartScheduling

namespace SmartScheduling

/-- C2: with all earlier booking preconditions satisfied, `bookSession`
is rejected with a conflict exactly when an active (`status ≠
cancelled`) session of the same therapist or the same client overlaps
the proposed half-open interval under `existing.start < end &&
existing.end > start`; and the reschedule apply route runs the same test
with the session's own id excluded. -/
theorem book_conflict_iff (σ : St) (cid tid s e : Nat)
    (hse : s < e)
    (ht : (σ.therapists.any fun t => t.tid == tid) = true)
    (hc : (σ.clients.any fun c => c.cid == cid) = true)
    (hav : isWithinAvailability σ.avail tid s e = true) :
    ((∃ p, (bookSession σ (some cid) tid s e).1 = .err (.conflict p)) ↔
      ∃ x ∈ σ.sessions, x.status ≠ .cancelled ∧
        (x.therapist = tid ∨ x.client = cid) ∧ x.start < e ∧ x.stop > s) ∧
    (∀ actor id ns ne existing, ns < ne →
      σ.sessions.find? (fun x => x.sid == id) = some existing →
      existing.status = .scheduled →
      canAccessSessionStrict actor existing = true →
      isWithinAvailability σ.avail existing.therapist ns ne = true →
      ((rescheduleSession σ actor id ns ne).1 = .err .conflict ↔
        ∃ x ∈ σ.sessions, x.sid ≠ id ∧ x.status ≠ .cancelled ∧
          (x.therapist = existing.therapist ∨ x.client = existing.client) ∧
          x.start < ne ∧ x.stop > ns)) := by
  have hns : ¬ e ≤ s := by omega
  constructor
  · by_cases htc : therapistConflict σ.sessions tid s e none
    · have hout : (bookSession σ (some cid) tid s e).1 = .err (.conflict .therapist) := by
        simp [bookSession, hns, ht, hc, hav, htc]
      constructor
      · intro _
        obtain ⟨x, hx, hxt, hxs, h1, h2⟩ := therapistConflict_none_iff.mp htc
        exact ⟨x, hx, hxs, Or.inl hxt, h1, h2⟩
      · intro _
        exact ⟨.therapist, hout⟩
    · by_cases hcc : clientConflict σ.sessions cid s e none
      · have hout : (bookSession σ (some cid) tid s e).1 = .err (.conflict .client) := by
          simp [bookSession, hns, ht, hc, hav, htc, hcc]
        constructor
        · intro _
          obtain ⟨x, hx, hxc, hxs, h1, h2⟩ := clientConflict_none_iff.mp hcc
          exact ⟨x, hx, hxs, Or.inr hxc, h1, h2⟩
        · intro _
          exact ⟨.client, hout⟩
      · have hout : (bookSession σ (some cid) tid s e).1 =
            .ok ⟨freshSid σ, tid, cid, s, e, .scheduled⟩ := by
          simp [bookSession, hns, ht, hc, hav, htc, hcc]
        constructor
        · rintro ⟨p, hp⟩
          rw [hout] at hp
          cases hp
        · rintro ⟨x, hx, hxs, hp, h1, h2⟩
          exfalso
          rcases hp with hp | hp
          · exact htc (therapistConflict_none_iff.mpr ⟨x, hx, hp, hxs, h1, h2⟩)
          · exact hcc (clientConflict_none_iff.mpr ⟨x, hx, hp, hxs, h1, h2⟩)
  · intro actor id ns ne existing hnsne hf hst hacc hwav
    have hns2 : ¬ ne ≤ ns := by omega
    by_cases htc : therapistConflict σ.sessions existing.therapist ns ne (some id)
    · have hout : (rescheduleSession σ actor id ns ne).1 = .err .conflict := by
        simp [rescheduleSession, hns2, hf, hst, hacc, hwav, htc]
      constructor
      · intro _
        obtain ⟨x, hx, hxi, hxt, hxs, h1, h2⟩ := therapistConflict_excl_iff.mp htc
        exact ⟨x, hx, hxi, hxs, Or.inl hxt, h1, h2⟩
      · intro _
        exact hout
    · by_cases hcc : clientConflict σ.sessions existing.client ns ne (some id)
      · have hout : (rescheduleSession σ actor id ns ne).1 = .err .conflict := by
          simp [rescheduleSession, hns2, hf, hst, hacc, hwav, htc, hcc]
        constructor
        · intro _
          obtain ⟨x, hx, hxi, hxc, hxs, h1, h2⟩ := clientConflict_excl_iff.mp hcc
          exact ⟨x, hx, hxi, hxs, Or.inr hxc, h1, h2⟩
        · intro _
          exact hout
      · have hout : (rescheduleSession σ actor id ns ne).1 =
            .ok { existing with start := ns, stop := ne } := by
          simp [rescheduleSession, hns2, hf, hst, hacc, hwav, htc, hcc]
        constructor
        · intro hp
          rw [hout] at hp
          cases hp
        · rintro ⟨x, hx, hxi, hxs, hp, h1, h2⟩
          exfalso
          rcases hp with hp | hp
          · exact htc (therapistConflict_excl_iff.mpr ⟨x, hx, hxi, hp, hxs, h1, h2⟩)
          · exact hcc (clientConflict_excl_iff.mpr ⟨x, hx, hxi, hp, hxs, h1, h2⟩)

/-- Witness for C2: in `stPastOk` the stored 09:00-09:30 Monday session
makes a second booking of the same window a conflict. -/
theorem book_conflict_iff_witness :
    ∃ p, (bookSession stPastOk (some 2) 7 6300 6330).1 = .err (.conflict p) :=
  (book_conflict_iff stPastOk 2 7 6300 6330 (by norm_num) (by decide) (by decide)
      (by decide)).1.mpr
    ⟨⟨1, 7, 2, 6300, 6330, .scheduled⟩, by decide, by decide, Or.inl rfl,
      by norm_num, by norm_num⟩

end SmartScheduling

namespace SmartScheduling

/-- C5 counterexample: a booking that names a nonexistent therapist
while its interval is inverted (`end <= start`) is rejected as
INVALID_TIME ("endAt must be after startAt"), not NOT_FOUND — the
end-after-start check runs before the therapist lookup. -/
theorem book_inverted_before_notfound :
    (bookSession stInverted (some 1) 7 10 5).1 = .err .invalidTime ∧
    (bookSession stInverted (some 1) 7 10 5).1 ≠ .err .therapistNotFound := by
  decide

/-- C5 amended: `bookSession` evaluates its checks in this order,
first failure wins: `end > start`; therapist exists; client profile
exists; interval within resolved availability; no therapist conflict;
no client conflict; otherwise the `scheduled` session is inserted.
(The claim placed the `end > start` check after the existence checks;
in the code it comes before the therapist lookup.) -/
theorem book_check_order (σ : St) (cid tid s e : Nat) :
    (e ≤ s → (bookSession σ (some cid) tid s e).1 = .err .invalidTime) ∧
    (s < e → (σ.therapists.any fun t => t.tid == tid) = false →
      (bookSession σ (some cid) tid s e).1 = .err .therapistNotFound) ∧
    (s < e → (σ.therapists.any fun t => t.tid == tid) = true →
      (σ.clients.any fun c => c.cid == cid) = false →
      (bookSession σ (some cid) tid s e).1 = .err .clientProfileNotFound) ∧
    (s < e → (σ.therapists.any fun t => t.tid == tid) = true →
      (σ.clients.any fun c => c.cid == cid) = true →
      isWithinAvailability σ.avail tid s e = false →
      (bookSession σ (some cid) tid s e).1 = .err .notInAvailability) ∧
    (s < e → (σ.therapists.any fun t => t.tid == tid) = true →
      (σ.clients.any fun c => c.cid == cid) = true →
      isWithinAvailability σ.avail tid s e = true →
      therapistConflict σ.sessions tid s e none = true →
      (bookSession σ (some cid) tid s e).1 = .err (.conflict .therapist)) ∧
    (s < e → (σ.therapists.any fun t => t.tid == tid) = true →
      (σ.clients.any fun c => c.cid == cid) = true →
      isWithinAvailability σ.avail tid s e = true →
      therapistConflict σ.sessions tid s e none = false →
      clientConflict σ.sessions cid s e none = true →
      (bookSession σ (some cid) tid s e).1 = .err (.conflict .client)) ∧
    (s < e → (σ.therapists.any fun t => t.tid == tid) = true →
      (σ.clients.any fun c => c.cid == cid) = true →
      isWithinAvailability σ.avail tid s e = true →
      therapistConflict σ.sessions tid s e none = false →
      clientConflict σ.sessions cid s e none = false →
      bookSession σ (some cid) tid s e =
        (.ok ⟨freshSid σ, tid, cid, s, e, .scheduled⟩,
         { σ with sessions :=
            σ.sessions ++ [⟨freshSid σ, tid, cid, s, e, .scheduled⟩] })) := by
  refine ⟨?_, ?_, ?_, ?_, ?_, ?_, ?_⟩
  · intro h1
    simp [bookSession, h1]
  · intro h1 h2
    simp [bookSession, h1.not_le, h2]
  · intro h1 h2 h3
    simp [bookSession, h1.not_le, h2, h3]
  · intro h1 h2 h3 h4
    simp [bookSession, h1.not_le, h2, h3, h4]
  · intro h1 h2 h3 h4 h5
    simp [bookSession, h1.not_le, h2, h3, h4, h5]
  · intro h1 h2 h3 h4 h5 h6
    simp [bookSession, h1.not_le, h2, h3, h4, h5, h6]
  · intro h1 h2 h3 h4 h5 h6
    simp [bookSession, h1.not_le, h2, h3, h4, h5, h6]

/-- Witness for C5 amended: in `stRace` the first Monday 09:00-09:30
booking of client 2 with therapist 1 passes every check and inserts
the scheduled session with the fresh id. -/
theorem book_check_order_witness :
    bookSession stRace (some 2) 1 6300 6330 =
      (.ok ⟨freshSid stRace, 1, 2, 6300, 6330, .scheduled⟩,
       { stRace with sessions :=
          stRace.sessions ++ [⟨freshSid stRace, 1, 2, 6300, 6330, .scheduled⟩] }) :=
  (book_check_order stRace 2 1 6300 6330).2.2.2.2.2.2 (by norm_num) (by decide)
    (by decide) (by decide) (by decide) (by decide)

/-- C3 counterexample: in `stTimeOff` the therapist's whole Monday is
covered by a stored time-off interval, so the spec's resolved
availability for that date is empty and the claim demands a
NOT_IN_AVAILABILITY rejection; the code accepts the booking, because
`isWithinAvailability` reads only the `Availability` collection and
never consults time-off. -/
theorem book_ignores_timeoff :
    ¬ (((bookSession stTimeOff (some 1) 7 6300 6330).1 = .err .notInAvailability) ↔
        specWithinResolvedAvailability stTimeOff 7 6300 6330 = false) := by
  decide

/-- C3 amended: with the earlier checks passed, `bookSession` rejects
NOT_IN_AVAILABILITY exactly when no single `Availability` record of the
therapist for the start's UTC weekday contains the proposed wall-clock
interval; stored time-off intervals play no part in the decision. -/
theorem book_availability_iff (σ : St) (cid tid s e : Nat)
    (hse : s < e)
    (ht : (σ.therapists.any fun t => t.tid == tid) = true)
    (hc : (σ.clients.any fun c => c.cid == cid) = true) :
    (bookSession σ (some cid) tid s e).1 = .err .notInAvailability ↔
      ¬ ∃ a ∈ σ.avail, a.therapist = tid ∧ a.dayOfWeek = dayOfWeekUTC s ∧
        a.startTime ≤ hhmmUTC s ∧ hhmmUTC e ≤ a.endTime := by
  have hns : ¬ e ≤ s := by omega
  by_cases hav : isWithinAvailability σ.avail tid s e
  · have hex := isWithinAvailability_iff.mp hav
    constructor
    · intro hout
      exfalso
      by_cases htc : therapistConflict σ.sessions tid s e none
      · simp [bookSession, hns, ht, hc, hav, htc] at hout
      · by_cases hcc : clientConflict σ.sessions cid s e none
        · simp [bookSession, hns, ht, hc, hav, htc, hcc] at hout
        · simp [bookSession, hns, ht, hc, hav, htc, hcc] at hout
    · intro hnex
      exact absurd hex hnex
  · have hout : (bookSession σ (some cid) tid s e).1 = .err .notInAvailability := by
      simp [bookSession, hns, ht, hc, hav]
    constructor
    · intro _ hx
      exact hav (isWithinAvailability_iff.mpr hx)
    · intro _
      exact hout

/-- Witness for C3 amended: in `stTimeOff` the proposed Monday interval
lies inside the stored availability record, so the booking is not
rejected for availability even though the whole day is covered by
time-off. -/
theorem book_availability_iff_witness :
    (bookSession stTimeOff (some 1) 7 6300 6330).1 ≠ .err .notInAvailability :=
  fun h =>
    (book_availability_iff stTimeOff 1 7 6300 6330 (by norm_num) (by decide)
        (by decide)).mp h
      ⟨⟨7, 1, 540, 720, true⟩, by decide, rfl, by decide, by decide, by decide⟩

end SmartScheduling

namespace SmartScheduling

theorem le_foldr_max {l : List Nat} {x : Nat} (hx : x ∈ l) :
    x ≤ l.foldr max 0 := by
  induction l with
  | nil => cases hx
  | cons y ys ih =>
    rcases List.mem_cons.mp hx with rfl | hx2
    · exact le_max_left _ _
    · exact le_trans (ih hx2) (le_max_right _ _)

theorem sid_lt_freshSid {σ : St} {x : Session} (hx : x ∈ σ.sessions) :
    x.sid < freshSid σ := by
  have : x.sid ∈ σ.sessions.map Session.sid := List.mem_map_of_mem _ hx
  have := le_foldr_max this
  unfold freshSid
  omega

theorem find?_sid_unique {l : List Session} {id : Nat} {u a : Session}
    (hu : List.Pairwise (fun a b => a.sid ≠ b.sid) l)
    (hf : l.find? (fun x => x.sid == id) = some u)
    (ha : a ∈ l) (hsid : a.sid = id) : a = u := by
  induction l with
  | nil => cases ha
  | cons y ys ih =>
    rw [List.find?_cons] at hf
    obtain ⟨hy, hys⟩ := List.pairwise_cons.mp hu
    rcases List.mem_cons.mp ha with rfl | ha2
    · simp only [hsid, beq_self_eq_true] at hf
      exact Option.some_inj.mp hf
    · by_cases hyid : y.sid = id
      · exact absurd (hyid.trans hsid.symm) (hy a ha2)
      · have hyb : (y.sid == id) = false := by simpa using hyid
        simp only [hyb] at hf
        exact ih hys hf ha2

theorem book_preserves_wf (σ : St) (c : Option Nat) (tid s e : Nat)
    (hu : SidsUnique σ.sessions) (hcf : ClashFree σ.sessions) :
    SidsUnique (bookSession σ c tid s e).2.sessions ∧
    ClashFree (bookSession σ c tid s e).2.sessions := by
  cases c with
  | none => simpa [bookSession] using ⟨hu, hcf⟩
  | some cid =>
    by_cases h1 : e ≤ s
    · simpa [bookSession, h1] using ⟨hu, hcf⟩
    · by_cases h2 : (σ.therapists.any fun t => t.tid == tid) = true
      case neg => simpa [bookSession, h1, h2] using ⟨hu, hcf⟩
      case pos =>
      by_cases h3 : (σ.clients.any fun c => c.cid == cid) = true
      case neg => simpa [bookSession, h1, h2, h3] using ⟨hu, hcf⟩
      case pos =>
      by_cases h4 : isWithinAvailability σ.avail tid s e
      case neg => simpa [bookSession, h1, h2, h3, h4] using ⟨hu, hcf⟩
      case pos =>
      by_cases h5 : therapistConflict σ.sessions tid s e none
      case pos => simpa [bookSession, h1, h2, h3, h4, h5] using ⟨hu, hcf⟩
      case neg =>
      by_cases h6 : clientConflict σ.sessions cid s e none
      case pos => simpa [bookSession, h1, h2, h3, h4, h5, h6] using ⟨hu, hcf⟩
      case neg =>
      have hres : (bookSession σ (some cid) tid s e).2 =
          { σ with sessions :=
              σ.sessions ++ [⟨freshSid σ, tid, cid, s, e, .scheduled⟩] } := by
        simp [bookSession, h1, h2, h3, h4, h5, h6]
      rw [hres]
      constructor
      · unfold SidsUnique
        rw [List.pairwise_append]
        refine ⟨hu, List.pairwise_singleton _ _, ?_⟩
        intro a ha b hb
        rcases List.mem_singleton.mp hb with rfl
        have := sid_lt_freshSid (σ := σ) ha
        simp only []
        omega
      · unfold ClashFree
        rw [List.pairwise_append]
        refine ⟨hcf, List.pairwise_singleton _ _, ?_⟩
        intro a ha b hb
        rcases List.mem_singleton.mp hb with rfl
        rintro ⟨has, -, hparty, hov1, hov2⟩
        rcases hparty with hp | hp
        · exact h5 (therapistConflict_none_iff.mpr ⟨a, ha, hp, has, hov1, hov2⟩)
        · exact h6 (clientConflict_none_iff.mpr ⟨a, ha, hp, has, hov1, hov2⟩)

end SmartScheduling

namespace SmartScheduling

theorem reschedule_preserves_wf (σ : St) (actor : Actor) (id ns ne : Nat)
    (hu : SidsUnique σ.sessions) (hcf : ClashFree σ.sessions) :
    SidsUnique (rescheduleSession σ actor id ns ne).2.sessions ∧
    ClashFree (rescheduleSession σ actor id ns ne).2.sessions := by
  by_cases h1 : ne ≤ ns
  · simpa [rescheduleSession, h1] using ⟨hu, hcf⟩
  · cases hf : σ.sessions.find? fun x => x.sid == id with
    | none => simpa [rescheduleSession, h1, hf] using ⟨hu, hcf⟩
    | some existing =>
      by_cases h2 : existing.status = Status.scheduled
      case neg => simpa [rescheduleSession, h1, hf, h2] using ⟨hu, hcf⟩
      case pos =>
      by_cases h3 : canAccessSessionStrict actor existing
      case neg => simpa [rescheduleSession, h1, hf, h2, h3] using ⟨hu, hcf⟩
      case pos =>
      by_cases h4 : isWithinAvailability σ.avail existing.therapist ns ne
      case neg => simpa [rescheduleSession, h1, hf, h2, h3, h4] using ⟨hu, hcf⟩
      case pos =>
      by_cases h5 : therapistConflict σ.sessions existing.therapist ns ne (some id)
      case pos => simpa [rescheduleSession, h1, hf, h2, h3, h4, h5] using ⟨hu, hcf⟩
      case neg =>
      by_cases h6 : clientConflict σ.sessions existing.client ns ne (some id)
      case pos => simpa [rescheduleSession, h1, hf, h2, h3, h4, h5, h6] using ⟨hu, hcf⟩
      case neg =>
      have hres : (rescheduleSession σ actor id ns ne).2 =
          { σ with sessions := σ.sessions.map fun x =>
              if x.sid == id then { x with start := ns, stop := ne } else x } := by
        simp [rescheduleSession, h1, hf, h2, h3, h4, h5, h6]
      rw [hres]
      constructor
      · unfold SidsUnique at *
        rw [List.pairwise_map]
        refine List.Pairwise.imp_of_mem ?_ hu
        intro a b _ _ hab
        by_cases ha : (a.sid == id) = true <;> by_cases hb : (b.sid == id) = true <;>
          simp [ha, hb, hab]
      · unfold SidsUnique at hu
        unfold ClashFree at *
        rw [List.pairwise_map]
        refine List.Pairwise.imp_of_mem ?_ (hu.and hcf)
        intro a b hma hmb hab
        obtain ⟨hab1, hab2⟩ := hab
        by_cases ha : a.sid = id
        · have haeq : a = existing := find?_sid_unique hu hf hma ha
          have hbne : ¬ b.sid = id := fun hbeq => hab1 (ha.trans hbeq.symm)
          have hab' : (a.sid == id) = true := by simpa using ha
          have hbb : (b.sid == id) = false := by simpa using hbne
          simp only [hab', hbb, if_true, Bool.false_eq_true, if_false]
          rw [haeq]
          rintro ⟨-, hact2, hparty, ho1, ho2⟩
          rcases hparty with hp | hp
          · exact h5 (therapistConflict_excl_iff.mpr
              ⟨b, hmb, hbne, hp.symm, hact2, ho2, ho1⟩)
          · exact h6 (clientConflict_excl_iff.mpr
              ⟨b, hmb, hbne, hp.symm, hact2, ho2, ho1⟩)
        · by_cases hb : b.sid = id
          · have hbeq : b = existing := find?_sid_unique hu hf hmb hb
            have hab' : (a.sid == id) = false := by simpa using ha
            have hbb : (b.sid == id) = true := by simpa using hb
            simp only [hab', hbb, if_true, Bool.false_eq_true, if_false]
            rw [hbeq]
            rintro ⟨hact1, -, hparty, ho1, ho2⟩
            rcases hparty with hp | hp
            · exact h5 (therapistConflict_excl_iff.mpr
                ⟨a, hma, ha, hp, hact1, ho1, ho2⟩)
            · exact h6 (clientConflict_excl_iff.mpr
                ⟨a, hma, ha, hp, hact1, ho1, ho2⟩)
          · have hab' : (a.sid == id) = false := by simpa using ha
            have hbb : (b.sid == id) = false := by simpa using hb
            simp only [hab', hbb, Bool.false_eq_true, if_false]
            exact hab2

end SmartScheduling

namespace SmartScheduling

/-- C1: starting from a store satisfying the core invariant (and with
unique session ids, as Mongo guarantees for `_id`), any sequence of
`bookSession` / `rescheduleSession` calls — successful ones change the
store, rejected ones leave it untouched — preserves the invariant: the
sessions with `status ≠ cancelled` of any single therapist are pairwise
non-overlapping on `[start,end)`, and likewise for any single client
(`ClashFree`, i.e. `Pairwise noClash`). -/
theorem invariant_preserved (σ : St) (calls : List Call)
    (hu : SidsUnique σ.sessions) (hcf : ClashFree σ.sessions) :
    ClashFree (run σ calls).sessions := by
  induction calls generalizing σ with
  | nil => exact hcf
  | cons c cs ih =>
    have hstep : SidsUnique (step σ c).sessions ∧ ClashFree (step σ c).sessions := by
      cases c with
      | book cl t s e => exact book_preserves_wf σ cl t s e hu hcf
      | reschedule a i ns ne => exact reschedule_preserves_wf σ a i ns ne hu hcf
    exact ih (step σ c) hstep.1 hstep.2

/-- Witness for C1: from the empty session store of `stRace`, booking
client 2 and then client 3 on overlapping Monday windows leaves a
clash-free store (the second call is rejected as a conflict). -/
theorem invariant_preserved_witness :
    ClashFree (run stRace
      [Call.book (some 2) 1 6300 6330, Call.book (some 3) 1 6300 6345]).sessions :=
  invariant_preserved stRace
    [Call.book (some 2) 1 6300 6330, Call.book (some 3) 1 6300 6345]
    List.Pairwise.nil List.Pairwise.nil

end SmartScheduling

namespace SmartScheduling

/-- C9: the non-transactional booking path (every configuration with
`NODE_ENV ≠ "production"`) is not atomic.  Two concurrent bookings for
therapist 1 with fully overlapping intervals can both pass every check
against the same snapshot `stRace`; the partial unique index does not
stop the second insert (the intervals differ), and the resulting store
holds two overlapping `scheduled` sessions for therapist 1 — violating
the claimed exactly-one-succeeds outcome. -/
theorem booking_race_double_books :
    bookChecksPass stRace 2 1 6300 6330 = true ∧
    bookChecksPass stRace 3 1 6300 6345 = true ∧
    uniqueIndexViolated
      (insertScheduled stRace ⟨101, 1, 2, 6300, 6330, .scheduled⟩).sessions
      ⟨102, 1, 3, 6300, 6345, .scheduled⟩ = false ∧
    ¬ ClashFree
      (insertScheduled (insertScheduled stRace ⟨101, 1, 2, 6300, 6330, .scheduled⟩)
        ⟨102, 1, 3, 6300, 6345, .scheduled⟩).sessions := by
  refine ⟨by decide, by decide, by decide, ?_⟩
  intro h
  have h' : List.Pairwise noClash
      [(⟨101, 1, 2, 6300, 6330, .scheduled⟩ : Session),
       ⟨102, 1, 3, 6300, 6345, .scheduled⟩] := h
  rcases List.pairwise_cons.mp h' with ⟨hx, -⟩
  exact hx _ (List.mem_singleton.mpr rfl)
    ⟨by decide, by decide, Or.inl rfl, by norm_num, by norm_num⟩

/-- C10: slot slicing always terminates.  The public listing clamps the
requested duration into [5,120] minutes (default 30 for a missing or
non-numeric value), hence strictly positive; and for every positive
duration the shared slicing loop performs exactly `(endM - m) / d`
iterations, so it is finite on every input — which also covers the
`findSlots` slicing under its `sessionMinutes > 0` precondition. -/
theorem slot_slicing_terminates :
    (∀ q, 5 ≤ clampDuration q ∧ clampDuration q ≤ 120) ∧
    clampDuration none = 30 ∧
    (∀ m endM d, 0 < d → (slotStarts m endM d).length = (endM - m) / d) := by
  refine ⟨?_, rfl, ?_⟩
  · intro q
    match q with
    | none => exact ⟨by simp [clampDuration], by simp [clampDuration]⟩
    | some v =>
      by_cases h : v = 0
      · simp [clampDuration, h]
      · simp only [clampDuration, h, if_false]
        have h1 : (5 : Int) ≤ max 5 (min 120 v) := le_max_left _ _
        have h2 : max 5 (min 120 v) ≤ 120 :=
          max_le (by norm_num) (le_trans (min_le_left _ _) (le_refl _))
        omega
  · intro m endM d
    induction m, endM, d using slotStarts.induct with
    | case1 m endM d h ih =>
      intro hd
      rw [slotStarts, dif_pos h]
      simp only [List.length_cons]
      rw [ih hd]
      have h2 : d ≤ endM - m := by omega
      rw [Nat.div_eq_sub_div hd h2, Nat.sub_sub]
    | case2 m endM d h =>
      intro hd
      rw [slotStarts, dif_neg h]
      simp only [List.length_nil]
      have hlt : endM - m < d := by omega
      exact (Nat.div_eq_of_lt hlt).symm

/-- Witness for C10's per-duration length formula at a concrete slicing:
duration 3 over a width-10 window yields three slots. -/
theorem slot_slicing_terminates_witness :
    (slotStarts 0 10 3).length = (10 - 0) / 3 :=
  slot_slicing_terminates.2.2 0 10 3 (by norm_num)

end SmartScheduling

namespace SmartScheduling

theorem slotStarts_sound :
    ∀ (m endM d : Nat), ∀ x ∈ slotStarts m endM d, m ≤ x ∧ x + d ≤ endM := by
  intro m endM d
  induction m, endM, d using slotStarts.induct with
  | case1 m endM d h ih =>
    intro x hx
    rw [slotStarts, dif_pos h] at hx
    rcases List.mem_cons.mp hx with rfl | hx2
    · exact ⟨Nat.le_refl x, h.2⟩
    · have := ih x hx2
      omega
  | case2 m endM d h =>
    intro x hx
    rw [slotStarts, dif_neg h] at hx
    cases hx

theorem mem_insertSortedNat {x y : Nat} :
    ∀ {l : List Nat}, y ∈ insertSortedNat x l ↔ y = x ∨ y ∈ l := by
  intro l
  induction l with
  | nil => simp [insertSortedNat]
  | cons a as ih =>
    simp only [insertSortedNat]
    split
    · simp
    · simp only [List.mem_cons, ih]
      tauto

theorem mem_sortNat {y : Nat} : ∀ {l : List Nat}, y ∈ sortNat l ↔ y ∈ l := by
  intro l
  induction l with
  | nil => simp [sortNat]
  | cons a as ih =>
    simp only [sortNat, List.foldr_cons]
    rw [show as.foldr insertSortedNat [] = sortNat as from rfl] at *
    simp [mem_insertSortedNat, ih]

theorem overlapInterval_some {a b i : Iv} (h : overlapInterval a b = some i) :
    i.start = max a.start b.start ∧ i.stop = min a.stop b.stop ∧ i.start < i.stop := by
  simp only [overlapInterval, ge_iff_le] at h
  split at h
  · cases h
  · cases h
    refine ⟨rfl, rfl, ?_⟩
    show max a.start b.start < min a.stop b.stop
    omega

theorem applyHardConstraints_some {day : Nat} {int i2 : Iv} {hc : Option HardConstraints}
    (h : applyHardConstraints day int hc = some i2) :
    int.start ≤ i2.start ∧ i2.stop ≤ int.stop ∧
      (int.start < int.stop → i2.start < i2.stop) := by
  unfold applyHardConstraints at h
  match hc with
  | none =>
    simp only [Option.some_inj] at h
    subst h
    exact ⟨Nat.le_refl _, Nat.le_refl _, fun hlt => hlt⟩
  | some c =>
    simp only [] at h
    split at h
    · cases h
    · rename_i hge
      cases h
      push_neg at hge
      refine ⟨?_, ?_, fun _ => hge⟩
      · match c.noEarlyThan with
        | none => exact Nat.le_refl _
        | some t =>
          simp only []
          split
          · omega
          · exact Nat.le_refl _
      · match c.noLaterThan with
        | none => exact Nat.le_refl _
        | some t =>
          simp only []
          split
          · omega
          · exact Nat.le_refl _

theorem coveredBy_false {interval cand : Iv}
    (hne : interval.start < interval.stop)
    (h : coveredBy interval cand = false) :
    ¬ (cand.start ≤ interval.start ∧ interval.stop ≤ cand.stop) := by
  rintro ⟨hc1, hc2⟩
  unfold coveredBy at h
  have hov : overlapInterval interval cand =
      some ⟨interval.start, interval.stop⟩ := by
    simp only [overlapInterval, ge_iff_le]
    rw [if_neg (by omega)]
    rw [max_eq_left hc1, min_eq_left hc2]
  rw [hov] at h
  simp at h

end SmartScheduling

namespace SmartScheduling

theorem candidateSlots_sound {day : Nat} {pref : Preferences} {offs : List Iv}
    {sessions : List Session} {block : WeeklyBlock} {tid dur : Nat} {tr : TimeRange} :
    ∀ sl ∈ candidateSlots day pref offs sessions block tid dur tr,
      sl.therapist = tid ∧ sl.stop = sl.start + dur ∧
      ∃ I : Iv, I.start ≤ sl.start ∧ sl.start + dur ≤ I.stop ∧
        dayStart day + block.startTime ≤ I.start ∧
        I.stop ≤ dayStart day + block.endTime ∧
        (∀ off ∈ offs, ¬ (off.start ≤ I.start ∧ I.stop ≤ off.stop)) ∧
        (∀ x ∈ sessions, ¬ (x.start ≤ I.start ∧ I.stop ≤ x.stop)) := by
  intro sl hsl
  simp only [candidateSlots] at hsl
  split at hsl
  · cases hsl
  · rename_i i1 hov
    split at hsl
    · cases hsl
    · rename_i i2 hhc
      obtain ⟨ho1, ho2, hone⟩ := overlapInterval_some hov
      obtain ⟨hh1, hh2, hh3⟩ := applyHardConstraints_some hhc
      have hi2ne : i2.start < i2.stop := hh3 hone
      by_cases hoff : (offs.any fun off => coveredBy i2 off) = true
      · simp [hoff] at hsl
      · by_cases hses : (sessions.any fun x => coveredBy i2 ⟨x.start, x.stop⟩) = true
        · simp [hoff, hses] at hsl
        · simp only [hoff, hses, Bool.false_eq_true, if_false] at hsl
          obtain ⟨m, hm, rfl⟩ := List.mem_map.mp hsl
          obtain ⟨hm1, hm2⟩ := slotStarts_sound _ _ _ m hm
          refine ⟨rfl, rfl, i2, hm1, hm2, ?_, ?_, ?_, ?_⟩
          · have : (⟨dayStart day + block.startTime,
                dayStart day + block.endTime⟩ : Iv).start ≤ i1.start := by
              rw [ho1]
              exact le_max_left _ _
            exact le_trans this hh1
          · have : i1.stop ≤ (⟨dayStart day + block.startTime,
                dayStart day + block.endTime⟩ : Iv).stop := by
              rw [ho2]
              exact min_le_left _ _
            exact le_trans hh2 this
          · intro off hoffm
            have hfalse : coveredBy i2 off = false := by
              rw [Bool.eq_false_iff]
              intro htrue
              exact hoff (List.any_eq_true.mpr ⟨off, hoffm, htrue⟩)
            exact coveredBy_false hi2ne hfalse
          · intro x hxm
            have hfalse : coveredBy i2 ⟨x.start, x.stop⟩ = false := by
              rw [Bool.eq_false_iff]
              intro htrue
              exact hses (List.any_eq_true.mpr ⟨x, hxm, htrue⟩)
            exact coveredBy_false hi2ne hfalse

end SmartScheduling

namespace SmartScheduling

theorem findSlotsDay_sound {t : TherapistDoc} {pref : Preferences}
    {sessions : List Session} {day dur : Nat} :
    ∀ sl ∈ findSlotsDay t pref sessions day dur,
      sl.therapist = t.tid ∧ sl.stop = sl.start + dur ∧
      ∃ b ∈ t.weeklyAvailability, b.dayOfWeek = dayOfWeekUTC day ∧
        ∃ I : Iv, I.start ≤ sl.start ∧ sl.start + dur ≤ I.stop ∧
          dayStart day + b.startTime ≤ I.start ∧ I.stop ≤ dayStart day + b.endTime ∧
          (∀ off ∈ t.timeOff, ¬ (off.start ≤ I.start ∧ I.stop ≤ off.stop)) ∧
          (∀ x ∈ sessions, ¬ (x.start ≤ I.start ∧ I.stop ≤ x.stop)) := by
  intro sl hsl
  simp only [findSlotsDay] at hsl
  split at hsl
  · cases hsl
  · obtain ⟨block, hblock, hsl2⟩ := List.mem_flatMap.mp hsl
    obtain ⟨hbmem, hbdow⟩ := List.mem_filter.mp hblock
    obtain ⟨tr, htr, hsl3⟩ := List.mem_flatMap.mp hsl2
    obtain ⟨h1, h2, I, hI1, hI2, hI3, hI4, hI5, hI6⟩ := candidateSlots_sound sl hsl3
    exact ⟨h1, h2, block, hbmem, by simpa using hbdow, I, hI1, hI2, hI3, hI4, hI5, hI6⟩

theorem findSlotsLoop_sound (t : TherapistDoc) (pref : Preferences)
    (sessions : List Session) (day toT dur : Nat) :
    ∀ sl ∈ findSlotsLoop t pref sessions day toT dur,
      ∃ d2, day ≤ d2 ∧ d2 < toT ∧ sl ∈ findSlotsDay t pref sessions d2 dur := by
  induction day, toT, dur using findSlotsLoop.induct t pref sessions with
  | case1 day toT dur h ih =>
    intro sl hsl
    rw [findSlotsLoop, dif_pos h] at hsl
    rcases List.mem_append.mp hsl with hsl1 | hsl2
    · exact ⟨day, Nat.le_refl _, h, hsl1⟩
    · obtain ⟨d2, hd1, hd2, hd3⟩ := ih sl hsl2
      exact ⟨d2, by omega, hd2, hd3⟩
  | case2 day toT dur h =>
    intro sl hsl
    rw [findSlotsLoop, dif_neg h] at hsl
    cases hsl

end SmartScheduling

namespace SmartScheduling

/-- C6 amended: every slot of the public available-slots listing is
fully contained in an `Availability` record of its therapist for the
date's UTC weekday and overlaps no non-cancelled session of that
therapist — time-off is not consulted on that path; every slot of the
suggest variant `findSlots` is contained in a candidate window cut from
a weekly availability block of the matching weekday, and no time-off
interval and no fetched `scheduled` session fully contains that window
(slots may still overlap sessions that only partially overlap the
window, and `completed` sessions are not fetched at all). -/
theorem slot_generator_containment :
    (∀ (σ : St) (d : Nat) (q : Option Int), ∀ p ∈ getAvailableSlots σ d q,
      ∀ m ∈ p.2,
        (∃ a ∈ σ.avail, a.therapist = p.1 ∧ a.dayOfWeek = (d + 4) % 7 ∧
          a.startTime ≤ m ∧ m + clampDuration q ≤ a.endTime) ∧
        (∀ x ∈ σ.sessions, x.therapist = p.1 → x.status ≠ .cancelled →
          ¬ (x.start < d * 1440 + m + clampDuration q ∧ d * 1440 + m < x.stop))) ∧
    (∀ (σ : St) (cid tid fromT toT dur : Nat) (c : ClientDoc) (t : TherapistDoc)
        (slots : List Slot),
      findSlots σ cid tid fromT toT dur = some (c, t, slots) →
      ∀ sl ∈ slots, sl.therapist = tid ∧ sl.stop = sl.start + dur ∧
        ∃ day, fromT ≤ day ∧ day < toT ∧
        ∃ b ∈ t.weeklyAvailability, b.dayOfWeek = dayOfWeekUTC day ∧
        ∃ I : Iv, I.start ≤ sl.start ∧ sl.start + dur ≤ I.stop ∧
          dayStart day + b.startTime ≤ I.start ∧ I.stop ≤ dayStart day + b.endTime ∧
          (∀ off ∈ t.timeOff, ¬ (off.start ≤ I.start ∧ I.stop ≤ off.stop)) ∧
          (∀ x ∈ σ.sessions, x.therapist = tid → x.status = .scheduled →
            x.start < toT → fromT < x.stop → ¬ (x.start ≤ I.start ∧ I.stop ≤ x.stop))) := by
  constructor
  · intro σ d q p hp m hm
    simp only [getAvailableSlots] at hp
    obtain ⟨tid, htid, hpeq⟩ := List.mem_filterMap.mp hp
    split at hpeq
    · cases hpeq
    · cases hpeq
      simp only [freeSlotsFor] at hm
      obtain ⟨hmg, hmp⟩ := List.mem_filter.mp hm
      simp only [generateSlotTimes] at hmg
      have hmg2 := List.mem_dedup.mp (mem_sortNat.mp hmg)
      obtain ⟨r, hr, hmr⟩ := List.mem_flatMap.mp hmg2
      obtain ⟨hr1, hr2⟩ := slotStarts_sound _ _ _ m hmr
      simp only [availableRangesFor] at hr
      obtain ⟨a, ha, rfl⟩ := List.mem_map.mp hr
      obtain ⟨ham, hacond⟩ := List.mem_filter.mp ha
      rw [Bool.and_eq_true, beq_iff_eq, beq_iff_eq] at hacond
      constructor
      · exact ⟨a, ham, hacond.1, hacond.2, hr1, hr2⟩
      · rintro x hx hxt hxs ⟨hov1, hov2⟩
        have hnot := of_decide_eq_true hmp
        apply hnot
        rw [List.any_eq_true]
        refine ⟨x, hx, ?_⟩
        simp [hxt, hxs, hov1, hov2]
  · intro σ cid tid fromT toT dur c t slots hfind sl hsl
    simp only [findSlots] at hfind
    split at hfind
    · rename_i client tdoc hfc hft
      simp only [Option.some_inj, Prod.mk.injEq] at hfind
      obtain ⟨rfl, rfl, rfl⟩ := hfind
      obtain ⟨day, hday1, hday2, hslday⟩ := findSlotsLoop_sound _ _ _ _ _ _ sl hsl
      obtain ⟨h1, h2, b, hb, hbdow, I, hI1, hI2, hI3, hI4, hIoff, hIsess⟩ :=
        findSlotsDay_sound sl hslday
      have htid : tdoc.tid = tid := by simpa using List.find?_some hft
      refine ⟨htid ▸ h1, h2, day, hday1, hday2, b, hb, hbdow, I,
        hI1, hI2, hI3, hI4, hIoff, ?_⟩
      intro x hx hxt hxs hxlt hxgt
      apply hIsess x
      exact List.mem_filter.mpr ⟨hx, by simp [hxt, hxs, hxlt, hxgt]⟩
    · cases hfind

end SmartScheduling

namespace SmartScheduling

set_option maxRecDepth 4000

/-- C6 counterexample: in `stPartialOverlap` the scheduled session
09:00-09:30 only partially overlaps the Monday 09:00-12:00 block, so
`findSlots` keeps the whole window and emits the 09:00-10:00 slot —
which overlaps that active session, against the claim; and in
`stTimeOff` the public listing still offers every Monday slot of
therapist 7 although a stored time-off interval fully covers the
availability window the slots were sliced from. -/
theorem slot_overlaps_active_session :
    findSlots stPartialOverlap 2 1 5760 7200 60 =
      some (⟨2, prefs0⟩, ⟨1, [⟨1, 540, 720⟩], []⟩,
        [⟨1, 6300, 6360⟩, ⟨1, 6360, 6420⟩, ⟨1, 6420, 6480⟩]) ∧
    (⟨9, 1, 3, 6300, 6330, .scheduled⟩ : Session) ∈ stPartialOverlap.sessions ∧
    Status.scheduled ≠ Status.cancelled ∧
    ((6300 : Nat) < 6360 ∧ (6300 : Nat) < 6330) ∧
    getAvailableSlots stTimeOff 4 none = [(7, [540, 570, 600, 630, 660, 690])] ∧
    (⟨7, [], [⟨5760, 7200⟩]⟩ : TherapistDoc) ∈ stTimeOff.therapists ∧
    ((5760 : Nat) ≤ 4 * 1440 + 540 ∧ (4 * 1440 + 540 + 30 : Nat) ≤ 7200) := by
  refine ⟨?_, by decide, by decide, by norm_num, ?_, by decide, by norm_num⟩
  · have hc : candidateSlots 5760 ⟨[], [], [], none⟩ []
        [⟨9, 1, 3, 6300, 6330, .scheduled⟩]
        ⟨1, 540, 720⟩ 1 60 ⟨540, 720⟩ =
        [⟨1, 6300, 6360⟩, ⟨1, 6360, 6420⟩, ⟨1, 6420, 6480⟩] := by
      simp [candidateSlots, applyHardConstraints, overlapInterval, coveredBy,
        slotStarts, dayStart]
    have hday : findSlotsDay (⟨1, [⟨1, 540, 720⟩], []⟩ : TherapistDoc) prefs0
        [⟨9, 1, 3, 6300, 6330, .scheduled⟩] 5760 60 =
        [⟨1, 6300, 6360⟩, ⟨1, 6360, 6420⟩, ⟨1, 6420, 6480⟩] := by
      simp [findSlotsDay, prefs0, dayOfWeekUTC]
      exact hc
    have hloop : findSlotsLoop (⟨1, [⟨1, 540, 720⟩], []⟩ : TherapistDoc) prefs0
        [⟨9, 1, 3, 6300, 6330, .scheduled⟩] 5760 7200 60 =
        [⟨1, 6300, 6360⟩, ⟨1, 6360, 6420⟩, ⟨1, 6420, 6480⟩] := by
      rw [findSlotsLoop, dif_pos (by norm_num : (5760 : Nat) < 7200),
        findSlotsLoop, dif_neg (by norm_num : ¬ ((7200 : Nat) < 7200)),
        hday, List.append_nil]
    have hstep : findSlots stPartialOverlap 2 1 5760 7200 60 =
        some (⟨2, prefs0⟩, ⟨1, [⟨1, 540, 720⟩], []⟩,
          findSlotsLoop ⟨1, [⟨1, 540, 720⟩], []⟩ prefs0
            [⟨9, 1, 3, 6300, 6330, .scheduled⟩] 5760 7200 60) := rfl
    rw [hstep, hloop]
  · have hss : slotStarts 540 720 30 = [540, 570, 600, 630, 660, 690] := by
      simp [slotStarts]
    have hded : List.dedup [540, 570, 600, 630, 660, 690] =
        [540, 570, 600, 630, 660, 690] :=
      List.dedup_eq_self.mpr (by decide)
    have hgen : generateSlotTimes [⟨540, 720⟩] 30 =
        [540, 570, 600, 630, 660, 690] := by
      simp only [generateSlotTimes, List.flatMap_cons, List.flatMap_nil,
        List.append_nil]
      rw [hss, hded]
      simp [sortNat, insertSortedNat]
    have h0 : freeSlotsFor stTimeOff 4 7 30 =
        (generateSlotTimes [⟨540, 720⟩] 30).filter (fun m =>
          ¬ (stTimeOff.sessions.any fun x =>
              x.therapist == 7 && decide (x.status ≠ .cancelled) &&
              decide (x.start < 4 * 1440 + m + 30) &&
              decide (x.stop > 4 * 1440 + m))) := rfl
    have hfree : freeSlotsFor stTimeOff 4 7 30 =
        [540, 570, 600, 630, 660, 690] := by
      rw [h0, hgen]
      rfl
    have h1 : getAvailableSlots stTimeOff 4 none =
        [7].filterMap (fun tid =>
          let fs := freeSlotsFor stTimeOff 4 tid 30
          if fs.isEmpty then none else some (tid, fs)) := rfl
    rw [h1]
    simp only [List.filterMap_cons, List.filterMap_nil]
    simp [hfree]

end SmartScheduling

namespace SmartScheduling

set_option maxRecDepth 4000

/-- Witness for C6 amended at the `stPartialOverlap` suggest query: the
emitted 09:00-10:00 Monday slot lies in a window cut from the Monday
block that no time-off interval and no fetched scheduled session fully
contains. -/
theorem slot_generator_containment_witness :
    (Slot.mk 1 6300 6360).therapist = 1 ∧
    (Slot.mk 1 6300 6360).stop = (Slot.mk 1 6300 6360).start + 60 ∧
    (∃ day, 5760 ≤ day ∧ day < 7200 ∧
      ∃ b ∈ (TherapistDoc.mk 1 [⟨1, 540, 720⟩] []).weeklyAvailability,
        b.dayOfWeek = dayOfWeekUTC day ∧
        ∃ I : Iv, I.start ≤ (Slot.mk 1 6300 6360).start ∧
          (Slot.mk 1 6300 6360).start + 60 ≤ I.stop ∧
          dayStart day + b.startTime ≤ I.start ∧
          I.stop ≤ dayStart day + b.endTime ∧
          (∀ off ∈ (TherapistDoc.mk 1 [⟨1, 540, 720⟩] []).timeOff,
            ¬ (off.start ≤ I.start ∧ I.stop ≤ off.stop)) ∧
          (∀ x ∈ stPartialOverlap.sessions, x.therapist = 1 →
            x.status = .scheduled → x.start < 7200 → 5760 < x.stop →
            ¬ (x.start ≤ I.start ∧ I.stop ≤ x.stop))) := by
  have hc : candidateSlots 5760 ⟨[], [], [], none⟩ []
      [⟨9, 1, 3, 6300, 6330, .scheduled⟩]
      ⟨1, 540, 720⟩ 1 60 ⟨540, 720⟩ =
      [⟨1, 6300, 6360⟩, ⟨1, 6360, 6420⟩, ⟨1, 6420, 6480⟩] := by
    simp [candidateSlots, applyHardConstraints, overlapInterval, coveredBy,
      slotStarts, dayStart]
  have hday : findSlotsDay (⟨1, [⟨1, 540, 720⟩], []⟩ : TherapistDoc) prefs0
      [⟨9, 1, 3, 6300, 6330, .scheduled⟩] 5760 60 =
      [⟨1, 6300, 6360⟩, ⟨1, 6360, 6420⟩, ⟨1, 6420, 6480⟩] := by
    simp [findSlotsDay, prefs0, dayOfWeekUTC]
    exact hc
  have hloop : findSlotsLoop (⟨1, [⟨1, 540, 720⟩], []⟩ : TherapistDoc) prefs0
      [⟨9, 1, 3, 6300, 6330, .scheduled⟩] 5760 7200 60 =
      [⟨1, 6300, 6360⟩, ⟨1, 6360, 6420⟩, ⟨1, 6420, 6480⟩] := by
    rw [findSlotsLoop, dif_pos (by norm_num : (5760 : Nat) < 7200),
      findSlotsLoop, dif_neg (by norm_num : ¬ ((7200 : Nat) < 7200)),
      hday, List.append_nil]
  have hstep : findSlots stPartialOverlap 2 1 5760 7200 60 =
      some (⟨2, prefs0⟩, ⟨1, [⟨1, 540, 720⟩], []⟩,
        findSlotsLoop ⟨1, [⟨1, 540, 720⟩], []⟩ prefs0
          [⟨9, 1, 3, 6300, 6330, .scheduled⟩] 5760 7200 60) := rfl
  have hfind : findSlots stPartialOverlap 2 1 5760 7200 60 =
      some (⟨2, prefs0⟩, ⟨1, [⟨1, 540, 720⟩], []⟩,
        [⟨1, 6300, 6360⟩, ⟨1, 6360, 6420⟩, ⟨1, 6420, 6480⟩]) := by
    rw [hstep, hloop]
  exact slot_generator_containment.2 stPartialOverlap 2 1 5760 7200 60
    ⟨2, prefs0⟩ ⟨1, [⟨1, 540, 720⟩], []⟩
    [⟨1, 6300, 6360⟩, ⟨1, 6360, 6420⟩, ⟨1, 6420, 6480⟩] hfind
    ⟨1, 6300, 6360⟩ (by decide)

end SmartScheduling
